import Mathlib

/-!
Verification of the sybil documentation-example extraction library.

The document/region model, example evaluation and orchestration layer
(document.py, example.py, sybil/__init__.py) are not present in the source
tree; they are modelled from the specification and the repository's test
suite, as indicated by doc comments starting with Modelled from the spec.
The code-block parser (sybil/parsers/codeblock.py) is present and is
translated directly.

Conventions: document text is a list of characters; Python string slicing
text[a:b] is (text.take b).drop a; offsets are integers as in the source
(tests construct regions with negative starts).
-/

/-- Modelled from the spec (section 3, Region; sybil/__init__.py is absent):
an immutable half-open span with an opaque parsed payload and an opaque
evaluator capability.  The payload and evaluator types are parameters. -/
structure Region (P E : Type) where
  start : Int
  «end» : Int
  parsed : P
  evaluator : E
deriving DecidableEq, Repr

/-- Modelled from the spec (section 3, Document; document.py is absent):
the full text of one source file, its path, and the ordered collection of
regions. -/
structure Document (P E : Type) where
  text : List Char
  path : String
  regions : List (Region P E)
deriving DecidableEq, Repr

/-- A fresh document with no regions, as built at corpus-discovery time. -/
def Document.mk0 (text : List Char) (path : String) {P E : Type} : Document P E :=
  ⟨text, path, []⟩

/-- Errors raised by Document.add: the two PositionError cases carry the
offending region; OverlapError carries both regions, in the order they
are named in the message (the earlier-starting one first, matching the
tests' expected messages). -/
inductive AddError (P E : Type) where
  | beforeStart : Region P E → AddError P E
  | beyondEnd : Region P E → AddError P E
  | overlap : Region P E → Region P E → AddError P E
deriving DecidableEq, Repr

/-- Overlap check of Document.add against the immediate predecessor in
sorted order (none when there is no predecessor): fires when the
predecessor's end lies beyond the new region's start, naming the
predecessor first as in the tests' expected messages. -/
def prevCheck {P E : Type} (r : Region P E) : Option (Region P E) → Option (AddError P E)
  | some p => if r.start < p.«end» then some (.overlap p r) else none
  | none => none

/-- Overlap check of Document.add against the immediate successor in
sorted order: fires when the new region's end lies beyond the successor's
start, naming the new region first. -/
def nextCheck {P E : Type} (r : Region P E) : Option (Region P E) → Option (AddError P E)
  | some nx => if nx.start < r.«end» then some (.overlap r nx) else none
  | none => none

/-- The regions sorted before the new region's insertion point. -/
def before {P E : Type} (l : List (Region P E)) (r : Region P E) : List (Region P E) :=
  l.takeWhile (fun x => x.start < r.start)

/-- The regions at or after the new region's insertion point. -/
def after {P E : Type} (l : List (Region P E)) (r : Region P E) : List (Region P E) :=
  l.dropWhile (fun x => x.start < r.start)

/-- Modelled from the spec (section 4.1, Document.add; document.py is
absent): bounds checks first (start, then end, in the order the spec lists
the errors), then positional insertion by start with an overlap check
against the immediate predecessor and then the immediate successor in
sorted order. -/
def Document.add {P E : Type} (d : Document P E) (r : Region P E) :
    Except (AddError P E) (Document P E) :=
  if r.start < 0 then .error (.beforeStart r)
  else if (d.text.length : Int) < r.«end» then .error (.beyondEnd r)
  else
    match prevCheck r (before d.regions r).getLast? with
    | some e => .error e
    | none =>
      match nextCheck r (after d.regions r).head? with
      | some e => .error e
      | none => .ok ⟨d.text, d.path, before d.regions r ++ r :: after d.regions r⟩

/-- Driver folding Document.add over a list of regions, as the orchestrator
does when it runs each parser's output against a document; stops at the
first error. -/
def Document.addAll {P E : Type} (d : Document P E) :
    List (Region P E) → Except (AddError P E) (Document P E)
  | [] => .ok d
  | r :: rs =>
    match d.add r with
    | .ok d' => d'.addAll rs
    | .error e => .error e

instance {ε α : Type} [DecidableEq ε] [DecidableEq α] : DecidableEq (Except ε α) := fun a b =>
  match a, b with
  | .ok x, .ok y =>
    if h : x = y then .isTrue (by rw [h]) else .isFalse (by intro hc; cases hc; exact h rfl)
  | .error x, .error y =>
    if h : x = y then .isTrue (by rw [h]) else .isFalse (by intro hc; cases hc; exact h rfl)
  | .ok _, .error _ => .isFalse (by intro hc; cases hc)
  | .error _, .ok _ => .isFalse (by intro hc; cases hc)

/-- The half-open spans of two regions have nonempty intersection. -/
def Region.intersects {P E : Type} (a b : Region P E) : Prop :=
  max a.start b.start < min a.«end» b.«end»

instance {P E : Type} (a b : Region P E) : Decidable (a.intersects b) := by
  unfold Region.intersects; infer_instance

/-- Count of newline characters in a character list. -/
def countNl (s : List Char) : Nat := s.count '\n'

/-- Index of the last newline strictly before position pos, or -1 when
there is none: the sentinel value of Python str.rfind. -/
def rfindNl (s : List Char) (pos : Nat) : Int :=
  match ((s.take pos).reverse.findIdx? (fun c => c = '\n')) with
  | some k => (pos : Int) - 1 - (k : Int)
  | none => -1

/-- Modelled from the spec (section 4.1, line_column; document.py is
absent): both results are 1-based; the line is one more than the number of
newlines in text[:offset]; the column is the offset minus the index of the
preceding newline (-1 when there is none). -/
def Document.line_column {P E : Type} (d : Document P E) (offset : Nat) : Nat × Int :=
  (countNl (d.text.take offset) + 1, (offset : Int) - rfindNl d.text offset)

/-- Modelled from the spec (section 3, Example; example.py is absent): a
region bound to its document's path with the line and column derived from
the region's start offset.  The shared per-document namespace is threaded
through evaluation explicitly rather than stored. -/
structure Example (P E : Type) where
  path : String
  line : Nat
  column : Int
  region : Region P E

/-- Modelled from the spec (section 4.1, Document.__iter__; document.py is
absent): one Example per region, in the order the region list holds them. -/
def Document.examples {P E : Type} (d : Document P E) : List (Example P E) :=
  d.regions.map (fun r =>
    ⟨d.path, (d.line_column r.start.toNat).1, (d.line_column r.start.toNat).2, r⟩)

/-- Models a raised Python exception: its type and message.  Propagation
preserves both. -/
structure PyExn where
  exnType : String
  msg : String
deriving DecidableEq, Repr

/-- Outcome of one evaluator call: the updated namespace together with
either a raised exception or a returned value, where none stands for the
conventionally absent value (Python None) and some v for any other value,
rendered as the string Python would embed in the failure message. -/
def EvaluatorOutcome (N : Type) := N × Except PyExn (Option String)

/-- An evaluator capability as example.py calls it: a function of the
region's parsed payload and the shared namespace. -/
def Evaluator (P N : Type) := P → N → EvaluatorOutcome N

/-- Message of a SybilFailure, as asserted by TestExample.test_evaluate_not_okay. -/
def sybilFailureMessage {P E : Type} (ex : Example P E) (result : String) : String :=
  "Example at " ++ ex.path ++ ", line " ++ toString ex.line ++ ", column " ++
    toString ex.column ++ " did not evaluate as expected:\n" ++ result

/-- Modelled from the spec (sections 4.3 and 7; example.py is absent): the
two failure channels of evaluation, kept distinguishable as the design
notes require.  A SybilFailure carries the originating example and the
returned value; a raised exception is propagated unwrapped. -/
inductive EvalError (P E : Type) where
  | failure : Example P E → String → EvalError P E
  | propagated : PyExn → EvalError P E

/-- Modelled from the spec (section 4.3, Example.evaluate; example.py is
absent): invoke the evaluator on the parsed payload and namespace; an
absent return value is success, any other return value becomes a
SybilFailure carrying the example and the value, and a raised exception
passes through unchanged. -/
def Example.evaluate {P N : Type} (ex : Example P (Evaluator P N)) (ns : N) :
    N × Except (EvalError P (Evaluator P N)) Unit :=
  match ex.region.evaluator ex.region.parsed ns with
  | (ns', .error e) => (ns', .error (.propagated e))
  | (ns', .ok none) => (ns', .ok ())
  | (ns', .ok (some v)) => (ns', .error (.failure ex v))

/-- First index at which pat occurs as a contiguous sublist, Python
str.index style. -/
def subIdx (pat : List Char) : List Char → Option Nat
  | [] => if pat = ([] : List Char) then some 0 else none
  | c :: t =>
    if (c :: t).take pat.length = pat then some 0
    else (subIdx pat t).map (fun n => n + 1)

/-- The document text of TestDocument.test_example_line_and_column. -/
def lineColText : List Char := "R1XYZ\nR2XYZ\nR3XYZ\nR4XYZ\nR4XYZ\n".toList

/-- The document of the TestDocument fixture: text ABCDEFGH, path /the/path. -/
def theDoc : Document Unit Unit := Document.mk0 "ABCDEFGH".toList "/the/path"

/-- The evaluator of TestExample.test_evaluate_okay: records the parsed
payload in the namespace and returns the absent value. -/
def evOk : Evaluator String (List (String × String)) :=
  fun p ns => (ns ++ [("parsed", p)], .ok none)

/-- The example of TestExample.test_evaluate_okay. -/
def exOk : Example String (Evaluator String (List (String × String))) :=
  ⟨"/the/path", 1, 2, ⟨0, 1, "the data", evOk⟩⟩

/-- The evaluator of TestExample.test_evaluate_not_okay: returns a
non-absent value. -/
def evBad : Evaluator String (List (String × String)) :=
  fun _ ns => (ns, .ok (some "foo!"))

/-- The example of TestExample.test_evaluate_not_okay. -/
def exBad : Example String (Evaluator String (List (String × String))) :=
  ⟨"/the/path", 1, 2, ⟨0, 1, "the data", evBad⟩⟩

/-- The evaluator of TestExample.test_evaluate_raises_exception: raises
ValueError foo!. -/
def evRaise : Evaluator String (List (String × String)) :=
  fun _ ns => (ns, .error ⟨"ValueError", "foo!"⟩)

/-- The example of TestExample.test_evaluate_raises_exception. -/
def exRaise : Example String (Evaluator String (List (String × String))) :=
  ⟨"/the/path", 1, 2, ⟨0, 1, "the data", evRaise⟩⟩

/-- The structural invariant Document.add maintains (spec section 3,
Document): regions are ordered with each one ending at or before the next
one starts — sortedness by start combined with pairwise non-overlap. -/
def chainOrdered {P E : Type} (l : List (Region P E)) : Prop :=
  l.Pairwise (fun a b => a.«end» ≤ b.start)

instance {P E : Type} (l : List (Region P E)) : Decidable (chainOrdered l) := by
  unfold chainOrdered; infer_instance

/-- A fixture document with String payloads, for concrete scenarios. -/
def docStr : Document String Unit := Document.mk0 "ABCDEFGH".toList "/the/path"

/-- An empty-span region at offset 3 with payload a. -/
def rgA : Region String Unit := ⟨3, 3, "a", ()⟩

/-- An empty-span region at offset 3 with payload b. -/
def rgB : Region String Unit := ⟨3, 3, "b", ()⟩

/-- A fixture document that already holds one region spanning 2 to 4. -/
def docOne : Document String Unit :=
  ⟨"ABCDEFGH".toList, "/the/path", [⟨2, 4, "x", ()⟩]⟩

/-- A fixture document holding two separated regions, 0 to 2 and 4 to 6. -/
def docTwo : Document String Unit :=
  ⟨"ABCDEFGH".toList, "/the/path", [⟨0, 2, "a", ()⟩, ⟨4, 6, "b", ()⟩]⟩

/-- Whether an add outcome is an OverlapError. -/
def isOverlapError {P E : Type} : Except (AddError P E) (Document P E) → Bool
  | .error (.overlap _ _) => true
  | _ => false

/-- Python text[a:b] on character lists. -/
def pySlice (s : List Char) (a b : Nat) : List Char := (s.take b).drop a

/-- A search capability modelling a compiled pattern's search method:
given the text and a position, the span of the first match at or after
that position, if any.  Iteration over all matches is modelled by
repeated search from each match's end (one past it for an empty match),
as re.finditer scans. -/
def Matcher : Type := List Char → Nat → Option (Nat × Nat)

/-- Fuel-indexed scan behind find_region_sources: for each start-pattern
match, search the end pattern from the start match's end; a start match
with no following end match contributes nothing (the test expects the
empty sequence) and scanning continues; no failure is possible. -/
def findRegionSourcesAux (startP endP : Matcher) (text : List Char) :
    Nat → Nat → List ((Nat × Nat) × (Nat × Nat) × List Char)
  | 0, _ => []
  | fuel + 1, pos =>
    match startP text pos with
    | none => []
    | some (ms, me) =>
      let nextPos := if ms < me then me else me + 1
      match endP text me with
      | none => findRegionSourcesAux startP endP text fuel nextPos
      | some (es, ee) =>
        ((ms, me), (es, ee), pySlice text me es) ::
          findRegionSourcesAux startP endP text fuel nextPos

/-- Modelled from the spec (section 4.1, find_region_sources; document.py
is absent): lazily pair each start-pattern match with the nearest end
match at or after it and the sub-span between them; empty when no start
match exists; never an error. -/
def Document.find_region_sources {P E : Type} (d : Document P E) (startP endP : Matcher) :
    List ((Nat × Nat) × (Nat × Nat) × List Char) :=
  findRegionSourcesAux startP endP d.text (d.text.length + 1) 0

/-- A literal-substring pattern: matches its first occurrence at or after
the given position. -/
def litPat (pat : List Char) : Matcher := fun text pos =>
  ((List.range' pos (text.length + 1 - pos)).find?
    (fun i => decide (pySlice text i (i + pat.length) = pat))).map
    (fun i => (i, i + pat.length))

/-- Space or horizontal tab, the characters of the [ \t] classes in
codeblock.py's patterns and in textwrap.dedent. -/
def isHTab (c : Char) : Bool := c = ' ' || c = '\t'

/-- Python regex whitespace (the ASCII part relevant here). -/
def isPySpace (c : Char) : Bool :=
  c = ' ' || c = '\t' || c = '\n' || c = '\r' || c.toNat = 11 || c.toNat = 12

/-- Lines of a text, Python str.split on newline. -/
def splitNl (s : List Char) : List (List Char) := s.splitOn '\n'

/-- Rejoin lines with newlines, inverse of splitNl. -/
def joinNl (ls : List (List Char)) : List Char := List.intercalate ['\n'] ls

/-- A line matching textwrap's whitespace-only pattern [ \t]+ : nonempty
and made only of spaces and tabs. -/
def isWsOnly (l : List Char) : Bool := !l.isEmpty && l.all isHTab

/-- textwrap.dedent step 1: whitespace-only lines are emptied. -/
def stripWsLines (ls : List (List Char)) : List (List Char) :=
  ls.map (fun l => if isWsOnly l then [] else l)

/-- Leading run of spaces and tabs of one line. -/
def leadingWs (l : List Char) : List Char := l.takeWhile isHTab

/-- A line contributing an indent in textwrap.dedent: it holds some
character that is not a space or tab. -/
def hasContent (l : List Char) : Bool := l.any (fun c => !isHTab c)

/-- Longest common first part of two character lists, the margin
combination step of textwrap.dedent. -/
def lcp : List Char → List Char → List Char
  | a :: as, b :: bs => if a = b then a :: lcp as bs else []
  | _, _ => []

/-- The common margin of the content lines, none when no line has
content (then textwrap.dedent removes nothing). -/
def marginOf : List (List Char) → Option (List Char)
  | [] => none
  | i :: is => some (is.foldl lcp i)

/-- Strip the margin from a line when the line starts with it. -/
def removeMargin (m l : List Char) : List Char :=
  if !m.isEmpty && l.take m.length = m then l.drop m.length else l

/-- textwrap.dedent as codeblock.py uses it: empty the whitespace-only
lines, compute the common leading whitespace of the remaining content
lines, and remove it from the start of every line that carries it. -/
def dedent (s : List Char) : List Char :=
  let ls := stripWsLines (splitNl s)
  match marginOf ((ls.filter hasContent).map leadingWs) with
  | none => joinNl ls
  | some m => joinNl (ls.map (removeMargin m))

/-- The from __future__ import line codeblock.py generates:
'from __future__ import ' followed by the comma-joined names and a
newline. -/
def futureLine (fi : List String) : List Char :=
  "from __future__ import ".toList ++
    List.intercalate ", ".toList (fi.map String.toList) ++ ['\n']

/-- Evaluator values of the code-block registry.  evaluate_code_block
stands for codeblock.py's evaluate_code_block function (which compiles
and executes the parsed source; its body is runtime behaviour outside
this model); custom n stands for any other registered function. -/
inductive CBEval where
  | evaluate_code_block : CBEval
  | custom : Nat → CBEval
deriving DecidableEq, Repr

/-- The initial value of the class attribute CodeBlockParser._LANGUAGES:
only python is mapped, to evaluate_code_block. -/
def initLANGUAGES : List (String × CBEval) := [("python", CBEval.evaluate_code_block)]

/-- Python dict lookup on the insertion-ordered association list. -/
def dictGet {α : Type} : List (String × α) → String → Option α
  | [], _ => none
  | (k, v) :: rest, key => if k = key then some v else dictGet rest key

/-- CodeBlockParser.add_evaluator: cls._LANGUAGES[language] = eval_function,
Python dict assignment — overwrite in place when the key exists, append
otherwise.  A classmethod: the registry is one piece of state shared by
every instance, so calls here are visible to every CodeBlockParser. -/
def add_evaluator {α : Type} : List (String × α) → String → α → List (String × α)
  | [], lang, f => [(lang, f)]
  | (k, v) :: rest, lang, f =>
    if k = lang then (lang, f) :: rest else (k, v) :: add_evaluator rest lang f

/-- One match of CODEBLOCK_START as re.finditer yields it: the whole
match's span (start to stop, stop being source_start in codeblock.py),
the width of the indent group, and the language group.  The regular
expression engine producing these is external to the model. -/
structure StartMatch where
  start : Nat
  stop : Nat
  indent : Nat
  language : String
deriving DecidableEq, Repr

/-- Length of the run of spaces and tabs starting at position i. -/
def tabRun (text : List Char) (i : Nat) : Nat :=
  ((text.drop i).takeWhile isHTab).length

/-- Whether codeblock.py's end pattern (newline at end of text, or
newline followed by at most the indent's width of spaces and tabs and
then a non-whitespace character) matches at position i. -/
def endPatternAt (text : List Char) (k i : Nat) : Bool :=
  match text[i]? with
  | some c =>
    if c = '\n' then
      if i + 1 = text.length then true
      else
        let t := tabRun text (i + 1)
        if t ≤ k then
          match text[i + 1 + t]? with
          | some c2 => !isPySpace c2
          | none => false
        else false
    else false
  | none => false

/-- re.search of the end pattern from a position: the first position at
or after it where the end pattern matches. -/
def endSearch (text : List Char) (k fromPos : Nat) : Option Nat :=
  (List.range' fromPos (text.length - fromPos)).find? (fun i => endPatternAt text k i)

/-- The body of CodeBlockParser.__call__ for one start match: look the
language up in the registry (a missing language skips the block: none);
search the end pattern from the match's end — its absence would make
end_match.start() fail, the error () case; dedent the slice between
them; count the newlines before the slice; for python with configured
future imports, decrement the count and prepend the generated import
line; finally pad with that many newlines so compiled line numbers match
document positions, and build the region spanning match start to source
end with the looked-up evaluator. -/
def processMatch (langs : List (String × CBEval)) (future_imports : List String)
    (text : List Char) (m : StartMatch) :
    Option (Except Unit (Region (List Char) CBEval)) :=
  match dictGet langs m.language with
  | none => none
  | some ev =>
    match endSearch text m.indent m.stop with
    | none => some (.error ())
    | some sourceEnd =>
      let source0 := dedent (pySlice text m.stop sourceEnd)
      let lineCount0 := countNl (text.take m.stop)
      let lineCount :=
        if m.language = "python" ∧ future_imports ≠ [] then lineCount0 - 1 else lineCount0
      let source1 :=
        if m.language = "python" ∧ future_imports ≠ [] then
          futureLine future_imports ++ source0
        else source0
      some (.ok ⟨(m.start : Int), (sourceEnd : Int),
        List.replicate lineCount '\n' ++ source1, ev⟩)

/-- CodeBlockParser.__call__ over the sequence of start matches: a
missing language skips the match and continues; a missing end match is
the crash channel; otherwise the regions are yielded in match order. -/
def codeBlockCall (langs : List (String × CBEval)) (future_imports : List String)
    (text : List Char) : List StartMatch → Except Unit (List (Region (List Char) CBEval))
  | [] => .ok []
  | m :: ms =>
    match processMatch langs future_imports text m with
    | none => codeBlockCall langs future_imports text ms
    | some (.error e) => .error e
    | some (.ok r) =>
      match codeBlockCall langs future_imports text ms with
      | .ok rs => .ok (r :: rs)
      | .error e => .error e

/-- Document text whose recognized python block has no newline before its
body: '.. code-block:: python x' then a newline and an indented line.
CODEBLOCK_START matches at 0 with empty indent and language python, and
the match ends directly after python (offset 22), before the stray ' x':
the option-line and blank-line groups match zero times there. -/
def cbTextCE : List Char := ".. code-block:: python x\n   pass\n".toList

/-- Document text with a conventional block: one line, then the
introducer, then an indented body line.  The match spans 2 to 25 (the
blank-line group consumes the newline after python), so two newlines
precede the body slice. -/
def cbTextW : List Char := "A\n.. code-block:: python\n   x = 1\n".toList

/-- Modelled from the spec (sections 2, 3 Namespace and 4.4;
sybil/__init__.py and document.py are absent): a document as the
orchestrator hands it to the evaluation driver — its path, the identity
of its own namespace (created fresh with the document), and its examples'
evaluators in document order.  Namespace values live in a store indexed
by namespace identity; N is the namespace type. -/
structure SybilDoc (N : Type) where
  path : String
  nsId : Nat
  evaluators : List (N → N)

/-- Build the documents of the discovered files from a starting
namespace id, giving consecutive fresh ids. -/
def mkDocumentsFrom {N : Type} : Nat → List (String × List (N → N)) → List (SybilDoc N)
  | _, [] => []
  | i, (p, evs) :: rest => ⟨p, i, evs⟩ :: mkDocumentsFrom (i + 1) rest

/-- Modelled from the spec (section 4.4, Sybil.all_documents;
sybil/__init__.py is absent): one fully parsed document per discovered
file, in discovery order, each carrying its own fresh namespace. -/
def all_documents {N : Type} (files : List (String × List (N → N))) : List (SybilDoc N) :=
  mkDocumentsFrom 0 files

/-- Store update at one namespace id: an evaluator mutates only the
mapping object it was handed. -/
def nsUpdate {N : Type} (store : Nat → N) (i : Nat) (f : N → N) : Nat → N :=
  fun j => if j = i then f (store i) else store j

/-- The example calls of one document, in document order: each evaluator
paired with the document's namespace id. -/
def docCalls {N : Type} (d : SybilDoc N) : List (Nat × (N → N))  :=
  d.evaluators.map (fun f => (d.nsId, f))

/-- Sequential evaluation of example calls: record, for each call in
order, the namespace id and the namespace value passed to the evaluator,
updating the store at that id with the evaluator's result. -/
def evalSequence {N : Type} (store : Nat → N) : List (Nat × (N → N)) → List (Nat × N)
  | [] => []
  | (i, f) :: rest => (i, store i) :: evalSequence (nsUpdate store i f) rest

/-- The trace one document would produce in isolation: its k-th example
sees the fold of the document's first k evaluators over the given
namespace value. -/
def localSeq {N : Type} (i : Nat) (ns : N) : List (N → N) → List (Nat × N)
  | [] => []
  | f :: fs => (i, ns) :: localSeq i (f ns) fs

-- ===================== theorems =====================

theorem getLast?_mem {α : Type _} {l : List α} {x : α} (h : l.getLast? = some x) : x ∈ l := by
  obtain ⟨hne, rfl⟩ := List.mem_getLast?_eq_getLast (Option.mem_def.mpr h)
  exact List.getLast_mem hne

theorem pairwise_getLast_rel {α : Type _} {R : α → α → Prop} :
    ∀ {l : List α} {p : α}, l.Pairwise R → l.getLast? = some p → ∀ x ∈ l, x = p ∨ R x p
  | [], _, _, hl => by simp at hl
  | [a], p, _, hl => by
    simp only [List.getLast?_singleton, Option.some.injEq] at hl
    subst hl
    intro x hx
    rcases List.mem_singleton.mp hx with rfl
    exact Or.inl rfl
  | a :: b :: t, p, hp, hl => by
    rw [List.getLast?_cons_cons] at hl
    rcases List.pairwise_cons.mp hp with ⟨ha, ht⟩
    intro x hx
    rcases List.mem_cons.mp hx with rfl | hx'
    · exact Or.inr (ha p (getLast?_mem hl))
    · exact pairwise_getLast_rel ht hl x hx'

theorem pairwise_head_rel {α : Type _} {R : α → α → Prop} {l : List α} {h : α}
    (hp : l.Pairwise R) (hh : l.head? = some h) : ∀ x ∈ l, x = h ∨ R h x := by
  cases l with
  | nil => simp at hh
  | cons a t =>
    simp only [List.head?_cons, Option.some.injEq] at hh
    subst hh
    rcases List.pairwise_cons.mp hp with ⟨ha, _⟩
    intro x hx
    rcases List.mem_cons.mp hx with rfl | hx'
    · exact Or.inl rfl
    · exact Or.inr (ha x hx')

theorem intersects_iff {P E : Type} (a b : Region P E) :
    a.intersects b ↔
      a.start < a.«end» ∧ a.start < b.«end» ∧ b.start < a.«end» ∧ b.start < b.«end» := by
  unfold Region.intersects
  rw [max_lt_iff, lt_min_iff, lt_min_iff]
  tauto

theorem before_mem {P E : Type} {l : List (Region P E)} {r x : Region P E}
    (hx : x ∈ before l r) : x ∈ l ∧ x.start < r.start := by
  refine ⟨(List.takeWhile_sublist _).subset hx, ?_⟩
  have := List.mem_takeWhile_imp hx
  simpa using this

theorem after_subset {P E : Type} {l : List (Region P E)} {r x : Region P E}
    (hx : x ∈ after l r) : x ∈ l :=
  (List.dropWhile_sublist _).subset hx

theorem after_head_not_lt {P E : Type} {l : List (Region P E)} {r nx : Region P E}
    (hH : (after l r).head? = some nx) : ¬ nx.start < r.start := by
  have hfind := List.find?_not_eq_head?_dropWhile
    (p := fun x : Region P E => decide (x.start < r.start)) (l := l)
  rw [after] at hH
  rw [hH] at hfind
  have := List.find?_some hfind
  simpa using this

theorem prevCheck_eq_none_iff {P E : Type} {r : Region P E} {o : Option (Region P E)} :
    prevCheck r o = none ↔ ∀ p, o = some p → p.«end» ≤ r.start := by
  cases o with
  | none => simp [prevCheck]
  | some p =>
    by_cases hf : r.start < p.«end» <;> simp [prevCheck, hf]
    omega

theorem nextCheck_eq_none_iff {P E : Type} {r : Region P E} {o : Option (Region P E)} :
    nextCheck r o = none ↔ ∀ nx, o = some nx → r.«end» ≤ nx.start := by
  cases o with
  | none => simp [nextCheck]
  | some nx =>
    by_cases hf : nx.start < r.«end» <;> simp [nextCheck, hf]
    omega

theorem prevCheck_eq_some {P E : Type} {r : Region P E} {o : Option (Region P E)}
    {e : AddError P E} (h : prevCheck r o = some e) :
    ∃ p, o = some p ∧ e = .overlap p r ∧ r.start < p.«end» := by
  cases o with
  | none => simp [prevCheck] at h
  | some p =>
    by_cases hf : r.start < p.«end»
    · simp only [prevCheck, if_pos hf, Option.some.injEq] at h
      exact ⟨p, rfl, h.symm, hf⟩
    · simp [prevCheck, hf] at h

theorem nextCheck_eq_some {P E : Type} {r : Region P E} {o : Option (Region P E)}
    {e : AddError P E} (h : nextCheck r o = some e) :
    ∃ nx, o = some nx ∧ e = .overlap r nx ∧ nx.start < r.«end» := by
  cases o with
  | none => simp [nextCheck] at h
  | some nx =>
    by_cases hf : nx.start < r.«end»
    · simp only [nextCheck, if_pos hf, Option.some.injEq] at h
      exact ⟨nx, rfl, h.symm, hf⟩
    · simp [nextCheck, hf] at h

theorem add_bounds_pass {P E : Type} (d : Document P E) (r : Region P E)
    (h0 : 0 ≤ r.start) (h1 : r.«end» ≤ (d.text.length : Int)) :
    d.add r =
      match prevCheck r (before d.regions r).getLast? with
      | some e => .error e
      | none =>
        match nextCheck r (after d.regions r).head? with
        | some e => .error e
        | none => .ok ⟨d.text, d.path, before d.regions r ++ r :: after d.regions r⟩ := by
  unfold Document.add
  rw [if_neg (not_lt.mpr h0), if_neg (not_lt.mpr h1)]

theorem add_ok_of_checks {P E : Type} (d : Document P E) (r : Region P E)
    (h0 : 0 ≤ r.start) (h1 : r.«end» ≤ (d.text.length : Int))
    (hp : prevCheck r (before d.regions r).getLast? = none)
    (hn : nextCheck r (after d.regions r).head? = none) :
    d.add r = .ok ⟨d.text, d.path, before d.regions r ++ r :: after d.regions r⟩ := by
  rw [add_bounds_pass d r h0 h1, hp, hn]

theorem add_ok_insert {P E : Type} (d : Document P E) (r : Region P E)
    (h0 : 0 ≤ r.start) (h1 : r.«end» ≤ (d.text.length : Int))
    (hside : ∀ x ∈ d.regions, (x.start < r.start → x.«end» ≤ r.start) ∧
      (r.start ≤ x.start → r.«end» ≤ x.start)) :
    d.add r = .ok ⟨d.text, d.path, before d.regions r ++ r :: after d.regions r⟩ := by
  refine add_ok_of_checks d r h0 h1 (prevCheck_eq_none_iff.mpr ?_) (nextCheck_eq_none_iff.mpr ?_)
  · intro p hL
    obtain ⟨hpmem, hplt⟩ := before_mem (getLast?_mem hL)
    exact (hside p hpmem).1 hplt
  · intro nx hH
    have hnmem := after_subset (r := r)
      (List.mem_of_mem_head? (Option.mem_def.mpr hH))
    have hnge := after_head_not_lt hH
    exact (hside nx hnmem).2 (not_lt.mp hnge)

theorem after_start_ge {P E : Type} {l : List (Region P E)} {r y : Region P E}
    (hch : chainOrdered l) (hwf : ∀ x ∈ l, x.start ≤ x.«end»)
    (hy : y ∈ after l r) : r.start ≤ y.start := by
  have hpa : (after l r).Pairwise (fun a b : Region P E => a.«end» ≤ b.start) :=
    hch.sublist (List.dropWhile_sublist _)
  cases hH : (after l r).head? with
  | none => rw [List.head?_eq_none_iff] at hH; rw [hH] at hy; simp at hy
  | some nx =>
    have hnxge : r.start ≤ nx.start := not_lt.mp (after_head_not_lt hH)
    have hnxwf : nx.start ≤ nx.«end» :=
      hwf nx (after_subset (List.mem_of_mem_head? (Option.mem_def.mpr hH)))
    rcases pairwise_head_rel hpa hH y hy with rfl | hrel
    · exact hnxge
    · omega

theorem add_insert_chain {P E : Type} (d : Document P E) (r : Region P E)
    (hch : chainOrdered d.regions)
    (hne : ∀ x ∈ d.regions, x.start < x.«end»)
    (h0 : 0 ≤ r.start) (h1 : r.«end» ≤ (d.text.length : Int)) (hr : r.start < r.«end»)
    (hdisj : ∀ x ∈ d.regions, ¬ x.intersects r) :
    d.add r = .ok ⟨d.text, d.path, before d.regions r ++ r :: after d.regions r⟩ ∧
    chainOrdered (before d.regions r ++ r :: after d.regions r) ∧
    (before d.regions r ++ r :: after d.regions r).Perm (r :: d.regions) := by
  have hwf : ∀ x ∈ d.regions, x.start ≤ x.«end» := fun x hx => le_of_lt (hne x hx)
  have hside : ∀ x ∈ d.regions, (x.start < r.start → x.«end» ≤ r.start) ∧
      (r.start ≤ x.start → r.«end» ≤ x.start) := by
    intro x hx
    have hd := hdisj x hx
    rw [intersects_iff] at hd
    have hxne := hne x hx
    constructor <;> intro hlt <;> omega
  refine ⟨add_ok_insert d r h0 h1 hside, ?_, ?_⟩
  · rw [chainOrdered, List.pairwise_append]
    refine ⟨hch.sublist (List.takeWhile_sublist _), ?_, ?_⟩
    · rw [List.pairwise_cons]
      refine ⟨?_, hch.sublist (List.dropWhile_sublist _)⟩
      intro y hy
      have hyge := after_start_ge hch hwf hy
      exact (hside y (after_subset hy)).2 hyge
    · intro x hx y hy
      obtain ⟨hxmem, hxlt⟩ := before_mem hx
      have hxend : x.«end» ≤ r.start := (hside x hxmem).1 hxlt
      rcases List.mem_cons.mp hy with rfl | hy'
      · exact hxend
      · have hyge := after_start_ge hch hwf hy'
        omega
  · refine List.Perm.trans List.perm_middle (List.Perm.of_eq ?_)
    rw [before, after, List.takeWhile_append_dropWhile]

theorem chainOrdered_sorted {P E : Type} {l : List (Region P E)} (hch : chainOrdered l)
    (hne : ∀ x ∈ l, x.start < x.«end») :
    l.Sorted (fun a b : Region P E => a.start < b.start) := by
  rw [chainOrdered] at hch
  rw [List.Sorted]
  refine hch.imp_of_mem ?_
  intro a b ha _ hab
  have := hne a ha
  omega

theorem addAll_ok_chain {P E : Type} :
    ∀ (l : List (Region P E)) (d : Document P E),
    chainOrdered d.regions →
    (∀ x ∈ d.regions, x.start < x.«end») →
    (∀ r ∈ l, 0 ≤ r.start ∧ r.«end» ≤ (d.text.length : Int) ∧ r.start < r.«end») →
    (∀ x ∈ d.regions, ∀ r ∈ l, ¬ x.intersects r) →
    l.Pairwise (fun a b : Region P E => ¬ a.intersects b) →
    ∃ d', d.addAll l = .ok d' ∧ d'.text = d.text ∧ d'.path = d.path ∧
      chainOrdered d'.regions ∧ d'.regions.Perm (d.regions ++ l) ∧
      (∀ x ∈ d'.regions, x.start < x.«end»)
  | [], d, hch, hne, _, _, _ => ⟨d, rfl, rfl, rfl, hch, by simp, hne⟩
  | r :: l', d, hch, hne, hb, hdisj, hpair => by
    have hmem : r ∈ r :: l' := List.mem_cons_self r l'
    obtain ⟨hok, hch1, hperm1⟩ := add_insert_chain d r hch hne
      (hb r hmem).1 (hb r hmem).2.1 (hb r hmem).2.2
      (fun x hx => hdisj x hx r hmem)
    have hrne : r.start < r.«end» := (hb r hmem).2.2
    have hsub : ∀ x ∈ before d.regions r ++ r :: after d.regions r, x ∈ r :: d.regions :=
      fun x hx => hperm1.subset hx
    have hne1 : ∀ x ∈ before d.regions r ++ r :: after d.regions r, x.start < x.«end» := by
      intro x hx
      rcases List.mem_cons.mp (hsub x hx) with rfl | hxd
      · exact hrne
      · exact hne x hxd
    have hb1 : ∀ r' ∈ l',
        0 ≤ r'.start ∧ r'.«end» ≤ (d.text.length : Int) ∧ r'.start < r'.«end» :=
      fun r' hr' => hb r' (List.mem_cons_of_mem r hr')
    have hdisj1 : ∀ x ∈ before d.regions r ++ r :: after d.regions r,
        ∀ r' ∈ l', ¬ x.intersects r' := by
      intro x hx r' hr'
      rcases List.mem_cons.mp (hsub x hx) with rfl | hxd
      · exact (List.pairwise_cons.mp hpair).1 r' hr'
      · exact hdisj x hxd r' (List.mem_cons_of_mem r hr')
    obtain ⟨d', ha1, ha2, ha3, ha4, ha5, ha6⟩ :=
      addAll_ok_chain l' ⟨d.text, d.path, before d.regions r ++ r :: after d.regions r⟩
        hch1 hne1 hb1 hdisj1 (List.pairwise_cons.mp hpair).2
    refine ⟨d', ?_, ha2, ha3, ha4, ?_, ha6⟩
    · simp only [Document.addAll, hok]
      exact ha1
    · exact ha5.trans ((hperm1.append_right l').trans List.perm_middle.symm)

theorem examples_map_region {P E : Type} (d : Document P E) :
    d.examples.map (fun e => e.region) = d.regions := by
  rw [Document.examples, List.map_map]
  exact List.map_id _

theorem notIntersects_symm {P E : Type} :
    Symmetric (fun a b : Region P E => ¬ a.intersects b) := by
  intro a b h hint
  rw [intersects_iff] at hint
  exact h (by rw [intersects_iff]; tauto)

/-- C2 counterexample: two distinct empty-span regions at offset 3 are
within bounds and their spans do not intersect, and each insertion order
succeeds, yet the two orders yield different final documents (the empty
spans end up in reverse insertion order either way), so the final state is
not permutation-invariant and the starts are not strictly increasing. -/
theorem C2_counterexample :
    ([rgA, rgB] : List (Region String Unit)).Pairwise (fun a b => ¬ a.intersects b) ∧
    (∀ r ∈ ([rgA, rgB] : List (Region String Unit)),
      0 ≤ r.start ∧ r.«end» ≤ (docStr.text.length : Int)) ∧
    docStr.addAll [rgA, rgB] = .ok ⟨docStr.text, docStr.path, [rgB, rgA]⟩ ∧
    docStr.addAll [rgB, rgA] = .ok ⟨docStr.text, docStr.path, [rgA, rgB]⟩ ∧
    docStr.addAll [rgA, rgB] ≠ docStr.addAll [rgB, rgA] := by
  decide

/-- C2 amended: for regions with nonempty spans (start strictly below
end), pairwise non-overlapping and within bounds, inserting them through
Document.add in any two orders succeeds and yields the same document,
whose region list is one region per added region (a permutation of the
set) sorted in strictly increasing start order, and whose iteration
yields exactly one Example per region in that order. -/
theorem C2_add_permutation_invariant {P E : Type} (text : List Char) (path : String)
    (rs l₁ l₂ : List (Region P E))
    (hb : ∀ r ∈ rs, 0 ≤ r.start ∧ r.«end» ≤ (text.length : Int) ∧ r.start < r.«end»)
    (hdisj : rs.Pairwise (fun a b : Region P E => ¬ a.intersects b))
    (h1 : l₁.Perm rs) (h2 : l₂.Perm rs) :
    ∃ d', (Document.mk0 text path).addAll l₁ = .ok d' ∧
      (Document.mk0 text path).addAll l₂ = .ok d' ∧
      d'.regions.Perm rs ∧
      d'.regions.Sorted (fun a b : Region P E => a.start < b.start) ∧
      d'.examples.map (fun e => e.region) = d'.regions := by
  have run : ∀ l : List (Region P E), l.Perm rs →
      ∃ d', (Document.mk0 text path).addAll l = .ok d' ∧ d'.text = text ∧ d'.path = path ∧
        d'.regions.Perm rs ∧
        d'.regions.Sorted (fun a b : Region P E => a.start < b.start) := by
    intro l hl
    obtain ⟨d', ha1, ha2, ha3, ha4, ha5, ha6⟩ :=
      addAll_ok_chain l (Document.mk0 text path)
        (by simp [Document.mk0, chainOrdered]) (by simp [Document.mk0])
        (fun r hr => hb r (hl.subset hr)) (by simp [Document.mk0])
        ((hl.pairwise_iff (fun h => notIntersects_symm h)).mpr hdisj)
    refine ⟨d', ha1, ha2, ha3, ?_, chainOrdered_sorted ha4 ha6⟩
    exact ha5.trans (by simpa [Document.mk0] using hl)
  obtain ⟨d₁, hb1, ht1, hp1, hr1, hs1⟩ := run l₁ h1
  obtain ⟨d₂, hb2, ht2, hp2, hr2, hs2⟩ := run l₂ h2
  haveI : IsAntisymm (Region P E) (fun a b : Region P E => a.start < b.start) :=
    ⟨fun a b h h' => absurd (h.trans h') (lt_irrefl _)⟩
  have hreg : d₁.regions = d₂.regions :=
    List.eq_of_perm_of_sorted (hr1.trans hr2.symm) hs1 hs2
  have hdd : d₁ = d₂ := by
    cases d₁; cases d₂; simp_all
  refine ⟨d₁, hb1, ?_, hr1, hs1, examples_map_region d₁⟩
  rw [hdd]; exact hb2

/-- C3 counterexample: the new region spanning -1 to 3 intersects the
present region spanning 2 to 4 of a document whose regions are pairwise
non-overlapping, yet add does not fail with an OverlapError: the bounds
check fires first and raises the before-start PositionError. -/
theorem C3_counterexample :
    docOne.regions.Pairwise (fun a b : Region String Unit => ¬ a.intersects b) ∧
    (⟨2, 4, "x", ()⟩ : Region String Unit).intersects ⟨-1, 3, "y", ()⟩ ∧
    (⟨2, 4, "x", ()⟩ : Region String Unit) ∈ docOne.regions ∧
    docOne.add ⟨-1, 3, "y", ()⟩ =
      .error (.beforeStart ⟨-1, 3, "y", ()⟩) ∧
    isOverlapError (docOne.add ⟨-1, 3, "y", ()⟩) = false := by
  decide

/-- C3 amended: for a document satisfying the add-maintained invariant
(regions ordered with each ending at or before the next one's start, and
each with start at most end) and a new region within document bounds: if
the new region's span intersects the span of some present region then add
fails with an OverlapError naming the new region and a present region (in
either order, predecessor overlaps named predecessor-first, successor
overlaps named new-region-first), and if every present region either ends
at or before the new region's start or starts at or after its end
(adjacency included) then add succeeds. -/
theorem C3_overlap_detection {P E : Type} (d : Document P E) (r : Region P E)
    (hord : chainOrdered d.regions)
    (hwf : ∀ x ∈ d.regions, x.start ≤ x.«end»)
    (h0 : 0 ≤ r.start) (h1 : r.«end» ≤ (d.text.length : Int)) :
    ((∃ x ∈ d.regions, x.intersects r) →
      ∃ p q, d.add r = .error (.overlap p q) ∧
        ((p = r ∧ q ∈ d.regions) ∨ (q = r ∧ p ∈ d.regions))) ∧
    ((∀ x ∈ d.regions, (x.start < r.start → x.«end» ≤ r.start) ∧
        (r.start ≤ x.start → r.«end» ≤ x.start)) →
      ∃ d', d.add r = .ok d') := by
  constructor
  · intro hex
    cases hpc : prevCheck r (before d.regions r).getLast? with
    | some e =>
      obtain ⟨p, hL, rfl, hf⟩ := prevCheck_eq_some hpc
      refine ⟨p, r, ?_, Or.inr ⟨rfl, (before_mem (getLast?_mem hL)).1⟩⟩
      rw [add_bounds_pass d r h0 h1, hpc]
    | none =>
      cases hnc : nextCheck r (after d.regions r).head? with
      | some e =>
        obtain ⟨nx, hH, rfl, hf⟩ := nextCheck_eq_some hnc
        refine ⟨r, nx, ?_,
          Or.inl ⟨rfl, after_subset (List.mem_of_mem_head? (Option.mem_def.mpr hH))⟩⟩
        rw [add_bounds_pass d r h0 h1, hpc, hnc]
      | none =>
        exfalso
        obtain ⟨x, hxmem, hxint⟩ := hex
        have hsplit : x ∈ before d.regions r ++ after d.regions r := by
          rw [before, after, List.takeWhile_append_dropWhile]
          exact hxmem
        rw [intersects_iff] at hxint
        rcases List.mem_append.mp hsplit with hxa | hxb
        · have hbne : before d.regions r ≠ [] := List.ne_nil_of_mem hxa
          have hL := List.getLast?_eq_getLast_of_ne_nil hbne
          have hpmem := (before_mem (getLast?_mem hL)).1
          have hpwf := hwf _ hpmem
          have hpend := prevCheck_eq_none_iff.mp hpc _ hL
          have hpair : (before d.regions r).Pairwise
              (fun a b : Region P E => a.«end» ≤ b.start) :=
            hord.sublist (List.takeWhile_sublist _)
          rcases pairwise_getLast_rel hpair hL x hxa with heq | hxp
          · rw [heq] at hxint
            omega
          · omega
        · cases hH : (after d.regions r).head? with
          | none =>
            rw [List.head?_eq_none_iff] at hH
            rw [hH] at hxb
            simp at hxb
          | some nx =>
            have hnxmem := after_subset (r := r)
              (List.mem_of_mem_head? (Option.mem_def.mpr hH))
            have hnxwf := hwf nx hnxmem
            have hnxge := nextCheck_eq_none_iff.mp hnc nx hH
            have hpair : (after d.regions r).Pairwise
                (fun a b : Region P E => a.«end» ≤ b.start) :=
              hord.sublist (List.dropWhile_sublist _)
            rcases pairwise_head_rel hpair hH x hxb with heq | hxr
            · rw [heq] at hxint
              omega
            · omega
  · intro hside
    exact ⟨_, add_ok_insert d r h0 h1 hside⟩

/-- C3 witness: on the two-region fixture document, the new region 1 to 3
overlaps the present region 0 to 2 and add reports that overlap naming
both. -/
theorem C3_overlap_detection_witness :
    (chainOrdered docTwo.regions ∧
      (∀ x ∈ docTwo.regions, x.start ≤ x.«end») ∧
      0 ≤ (⟨1, 3, "c", ()⟩ : Region String Unit).start ∧
      (⟨1, 3, "c", ()⟩ : Region String Unit).«end» ≤ (docTwo.text.length : Int) ∧
      (∃ x ∈ docTwo.regions, x.intersects ⟨1, 3, "c", ()⟩)) ∧
    (∃ p q, docTwo.add ⟨1, 3, "c", ()⟩ = .error (.overlap p q) ∧
      ((p = (⟨1, 3, "c", ()⟩ : Region String Unit) ∧ q ∈ docTwo.regions) ∨
        (q = (⟨1, 3, "c", ()⟩ : Region String Unit) ∧ p ∈ docTwo.regions))) :=
  ⟨⟨by decide, by decide, by decide, by decide, by decide⟩,
    (C3_overlap_detection docTwo ⟨1, 3, "c", ()⟩
      (by decide) (by decide) (by decide) (by decide)).1 (by decide)⟩

/-- C2 witness: the two regions of TestDocument.test_add_out_of_order
inserted in both orders give the same sorted document. -/
theorem C2_add_permutation_invariant_witness :
    (∀ r ∈ ([⟨0, 1, "p", ()⟩, ⟨6, 8, "q", ()⟩] : List (Region String Unit)),
      0 ≤ r.start ∧ r.«end» ≤ (("ABCDEFGH".toList : List Char).length : Int) ∧
        r.start < r.«end») ∧
    (∃ d', (Document.mk0 "ABCDEFGH".toList "/the/path").addAll
        [⟨0, 1, "p", ()⟩, ⟨6, 8, "q", ()⟩] = .ok d' ∧
      (Document.mk0 "ABCDEFGH".toList "/the/path").addAll
        [⟨6, 8, "q", ()⟩, ⟨0, 1, "p", ()⟩] = .ok d' ∧
      d'.regions.Perm [⟨0, 1, "p", ()⟩, ⟨6, 8, "q", ()⟩] ∧
      d'.regions.Sorted (fun a b : Region String Unit => a.start < b.start) ∧
      d'.examples.map (fun e => e.region) = d'.regions) :=
  ⟨by decide,
    C2_add_permutation_invariant "ABCDEFGH".toList "/the/path"
      [⟨0, 1, "p", ()⟩, ⟨6, 8, "q", ()⟩]
      [⟨0, 1, "p", ()⟩, ⟨6, 8, "q", ()⟩]
      [⟨6, 8, "q", ()⟩, ⟨0, 1, "p", ()⟩]
      (by decide) (by decide) (by decide) (by decide)⟩

/-- C1: Example.evaluate has exactly three uniform outcomes, determined by
what the evaluator call on the parsed payload and namespace yields: an
absent return value is success; any other value v fails with a
SybilFailure carrying v and the originating example (hence its path, line
and column) whose message embeds v; a raised exception propagates
unchanged, preserving its type and message. -/
theorem C1_evaluate_contract {P N : Type} (ex : Example P (Evaluator P N)) (ns ns' : N) :
    (ex.region.evaluator ex.region.parsed ns = (ns', Except.ok none) →
      ex.evaluate ns = (ns', Except.ok ())) ∧
    (∀ v : String, ex.region.evaluator ex.region.parsed ns = (ns', Except.ok (some v)) →
      ex.evaluate ns = (ns', Except.error (EvalError.failure ex v)) ∧
      sybilFailureMessage ex v =
        "Example at " ++ ex.path ++ ", line " ++ toString ex.line ++ ", column " ++
          toString ex.column ++ " did not evaluate as expected:\n" ++ v) ∧
    (∀ e : PyExn, ex.region.evaluator ex.region.parsed ns = (ns', Except.error e) →
      ex.evaluate ns = (ns', Except.error (EvalError.propagated e))) := by
  refine ⟨fun h => ?_, fun v h => ⟨?_, rfl⟩, fun e h => ?_⟩ <;>
    simp [Example.evaluate, h]

/-- C1 witness: the three outcomes at the concrete inputs of the
TestExample tests, including the exact failure message the test asserts. -/
theorem C1_evaluate_contract_witness :
    Example.evaluate exOk [] = ([("parsed", "the data")], Except.ok ()) ∧
    (Example.evaluate exBad [] = ([], Except.error (EvalError.failure exBad "foo!")) ∧
      sybilFailureMessage exBad "foo!" =
        "Example at /the/path, line 1, column 2 did not evaluate as expected:\nfoo!") ∧
    Example.evaluate exRaise [] =
      ([], Except.error (EvalError.propagated ⟨"ValueError", "foo!"⟩)) := by
  refine ⟨(C1_evaluate_contract exOk [] _).1 rfl, ?_,
    (C1_evaluate_contract exRaise [] []).2.2 ⟨"ValueError", "foo!"⟩ rfl⟩
  have h := (C1_evaluate_contract exBad [] []).2.1 "foo!" rfl
  refine ⟨h.1, by rw [h.2]; decide⟩

/-- C4 counterexample: a region with start -1 and end 100 on the 8-long
fixture document has end beyond the document length, yet add fails with
the before-start PositionError, not the beyond-end one: the start check
takes precedence. -/
theorem C4_counterexample :
    (theDoc.text.length : Int) < (⟨-1, 100, (), ()⟩ : Region Unit Unit).«end» ∧
    theDoc.add ⟨-1, 100, (), ()⟩ = Except.error (AddError.beforeStart ⟨-1, 100, (), ()⟩) ∧
    theDoc.add ⟨-1, 100, (), ()⟩ ≠ Except.error (AddError.beyondEnd ⟨-1, 100, (), ()⟩) := by
  decide

/-- C4 amended: add fails with the before-start PositionError naming the
region whenever start is negative, and with the beyond-end PositionError
naming the region whenever end exceeds the text length and start is
non-negative (the start check takes precedence). -/
theorem C4_position_errors {P E : Type} (d : Document P E) (r : Region P E) :
    (r.start < 0 → d.add r = Except.error (AddError.beforeStart r)) ∧
    (0 ≤ r.start → (d.text.length : Int) < r.«end» →
      d.add r = Except.error (AddError.beyondEnd r)) := by
  constructor
  · intro h; unfold Document.add; rw [if_pos h]
  · intro h1 h2; unfold Document.add; rw [if_neg (not_lt.mpr h1), if_pos h2]

/-- C4 witness: the two PositionError scenarios of the test suite, at the
regions of test_add_before_start and test_add_after_end. -/
theorem C4_position_errors_witness :
    ((⟨-1, 0, (), ()⟩ : Region Unit Unit).start < 0 ∧
      theDoc.add ⟨-1, 0, (), ()⟩ = Except.error (AddError.beforeStart ⟨-1, 0, (), ()⟩)) ∧
    (0 ≤ (⟨8, 9, (), ()⟩ : Region Unit Unit).start ∧
      (theDoc.text.length : Int) < (⟨8, 9, (), ()⟩ : Region Unit Unit).«end» ∧
      theDoc.add ⟨8, 9, (), ()⟩ = Except.error (AddError.beyondEnd ⟨8, 9, (), ()⟩)) :=
  ⟨⟨by decide, (C4_position_errors theDoc _).1 (by decide)⟩,
   ⟨by decide, by decide, (C4_position_errors theDoc _).2 (by decide) (by decide)⟩⟩

/-- C5 counterexample: in the reference text, the offset of the start of
R2 is 6, and a region starting at 6 + 2 derives line 2 column 3, not the
claimed (2, 6); the test derives (2, 6) from offset 11 instead. -/
theorem C5_counterexample :
    subIdx "R2".toList lineColText = some 6 ∧
    (Document.mk0 lineColText "" (P := Unit) (E := Unit)).line_column (6 + 2) = (2, 3) ∧
    (Document.mk0 lineColText "" (P := Unit) (E := Unit)).line_column (6 + 2) ≠ (2, 6) := by
  decide

/-- C5 amended: line and column are 1-based, derived from the newlines of
text before the offset; on the reference text, the test's three regions,
starting at offset 0, at the offset of the start of R3 minus 1 (which is
the offset of the start of R2 plus 5), and at the offset of the line-4 R4
occurrence plus 3, derive (1,1), (2,6) and (4,4). -/
theorem C5_line_column_scenarios :
    subIdx "R2".toList lineColText = some 6 ∧
    subIdx "R3".toList lineColText = some 12 ∧
    subIdx "R4".toList lineColText = some 18 ∧
    ((Document.mk0 lineColText "" (P := Unit) (E := Unit)).addAll
        [⟨0, 6 + 2, (), ()⟩, ⟨12 - 1, 12 + 2, (), ()⟩, ⟨18 + 3, 30, (), ()⟩]).toOption.map
      (fun d => d.examples.map (fun e => (e.line, e.column))) =
      some [(1, 1), (2, 6), (4, 4)] := by
  decide

/-- C8: find_region_sources never fails: it is a total function into a
list of matched spans; when the start pattern has no match the result is
empty, and in the test's scenario (text X, start pattern X, end pattern Y,
where the start match has no following end match) the result is the empty
sequence rather than an error. -/
theorem C8_find_region_sources_safe {P E : Type} (startP endP : Matcher)
    (t : List Char) (path : String) (h : startP t 0 = none) :
    (Document.mk0 t path (P := P) (E := E)).find_region_sources startP endP = [] ∧
    (Document.mk0 "X".toList "/dev/null" (P := Unit) (E := Unit)).find_region_sources
      (litPat "X".toList) (litPat "Y".toList) = [] := by
  constructor
  · simp [Document.find_region_sources, Document.mk0, findRegionSourcesAux, h]
  · decide

/-- C8 witness: a start pattern with no match at all (literal Z over text
X) gives the empty sequence. -/
theorem C8_find_region_sources_safe_witness :
    litPat "Z".toList "X".toList 0 = none ∧
    ((Document.mk0 "X".toList "/dev/null" (P := Unit) (E := Unit)).find_region_sources
        (litPat "Z".toList) (litPat "Y".toList) = [] ∧
      (Document.mk0 "X".toList "/dev/null" (P := Unit) (E := Unit)).find_region_sources
        (litPat "X".toList) (litPat "Y".toList) = []) :=
  ⟨by decide,
    C8_find_region_sources_safe (litPat "Z".toList) (litPat "Y".toList)
      "X".toList "/dev/null" (by decide)⟩

theorem countNl_append (a b : List Char) : countNl (a ++ b) = countNl a + countNl b := by
  simp [countNl, List.count_append]

theorem countNl_replicate (k : Nat) : countNl (List.replicate k '\n') = k := by
  simp [countNl, List.count_replicate]

theorem processMatch_found {langs : List (String × CBEval)} {fi : List String}
    {text : List Char} {m : StartMatch} {ev : CBEval} {se : Nat}
    (hget : dictGet langs m.language = some ev)
    (hse : endSearch text m.indent m.stop = some se) :
    processMatch langs fi text m = some (.ok ⟨(m.start : Int), (se : Int),
      List.replicate (if m.language = "python" ∧ fi ≠ [] then
          countNl (text.take m.stop) - 1 else countNl (text.take m.stop)) '\n' ++
        (if m.language = "python" ∧ fi ≠ [] then
          futureLine fi ++ dedent (pySlice text m.stop se)
        else dedent (pySlice text m.stop se)), ev⟩) := by
  unfold processMatch
  rw [hget, hse]

/-- C6 counterexample: on a document whose recognized python block has no
newline before its body slice (the introducer line carries a stray token
after the language, so the match ends directly after python at offset 22,
on line one), configuring future imports yields a parsed source equal to
the generated import line followed by the dedented body: the body is
preceded by one newline although zero newlines precede it in the
document, so compiled line numbers no longer match document positions. -/
theorem C6_counterexample :
    countNl (cbTextCE.take 22) = 0 ∧
    dedent (pySlice cbTextCE 22 32) = "x\n  pass".toList ∧
    processMatch initLANGUAGES ["generators"] cbTextCE ⟨0, 22, 0, "python"⟩ =
      some (.ok ⟨0, 32, futureLine ["generators"] ++ "x\n  pass".toList,
        CBEval.evaluate_code_block⟩) ∧
    countNl (futureLine ["generators"]) = 1 := by
  decide

/-- C6 amended: for every recognized block (language registered, end
pattern found), the parsed source handed to the evaluator is the dedented
body slice prefixed by exactly one blank line per newline before the
slice in the document; with future imports configured for python, the
generated import line is prepended before the newline padding is laid
down (the count is decremented by the one newline the import line
carries), so that as long as at least one newline precedes the body
slice — which fails only for a block whose introducer line is not ended
by a newline inside the match — the newline count before the body is
unchanged and derived positions remain correct. -/
theorem C6_parsed_source (langs : List (String × CBEval)) (fi : List String)
    (text : List Char) (m : StartMatch) (ev : CBEval) (sourceEnd : Nat)
    (hlang : dictGet langs m.language = some ev)
    (hend : endSearch text m.indent m.stop = some sourceEnd)
    (hfi1 : countNl (futureLine fi) = 1) :
    (¬ (m.language = "python" ∧ fi ≠ []) →
      processMatch langs fi text m = some (.ok ⟨(m.start : Int), (sourceEnd : Int),
        List.replicate (countNl (text.take m.stop)) '\n' ++
          dedent (pySlice text m.stop sourceEnd), ev⟩) ∧
      countNl (List.replicate (countNl (text.take m.stop)) '\n') =
        countNl (text.take m.stop)) ∧
    ((m.language = "python" ∧ fi ≠ []) →
      processMatch langs fi text m = some (.ok ⟨(m.start : Int), (sourceEnd : Int),
        List.replicate (countNl (text.take m.stop) - 1) '\n' ++
          (futureLine fi ++ dedent (pySlice text m.stop sourceEnd)), ev⟩) ∧
      (1 ≤ countNl (text.take m.stop) →
        countNl (List.replicate (countNl (text.take m.stop) - 1) '\n' ++ futureLine fi) =
          countNl (text.take m.stop))) := by
  constructor
  · intro h
    refine ⟨?_, countNl_replicate _⟩
    rw [processMatch_found hlang hend, if_neg h, if_neg h]
  · intro h
    constructor
    · rw [processMatch_found hlang hend, if_pos h, if_pos h]
    · intro hn
      rw [countNl_append, countNl_replicate, hfi1]
      omega

/-- C6 witness: the conventional one-block document: without future
imports the parsed source is two newlines then the dedented body (two
newlines precede the body slice); with future imports it is one newline,
the import line, then the body, and the newline count before the body is
still two. -/
theorem C6_parsed_source_witness :
    (dictGet initLANGUAGES "python" = some CBEval.evaluate_code_block ∧
      endSearch cbTextW 0 25 = some 33 ∧
      countNl (cbTextW.take 25) = 2 ∧
      dedent (pySlice cbTextW 25 33) = "x = 1".toList) ∧
    (processMatch initLANGUAGES [] cbTextW ⟨2, 25, 0, "python"⟩ =
        some (.ok ⟨2, 33,
          List.replicate (countNl (cbTextW.take 25)) '\n' ++
            dedent (pySlice cbTextW 25 33), CBEval.evaluate_code_block⟩) ∧
      countNl (List.replicate (countNl (cbTextW.take 25)) '\n') =
        countNl (cbTextW.take 25)) ∧
    (processMatch initLANGUAGES ["generators"] cbTextW ⟨2, 25, 0, "python"⟩ =
        some (.ok ⟨2, 33,
          List.replicate (countNl (cbTextW.take 25) - 1) '\n' ++
            (futureLine ["generators"] ++ dedent (pySlice cbTextW 25 33)),
          CBEval.evaluate_code_block⟩) ∧
      countNl (List.replicate (countNl (cbTextW.take 25) - 1) '\n' ++
          futureLine ["generators"]) = countNl (cbTextW.take 25)) :=
  ⟨by decide,
    (C6_parsed_source initLANGUAGES [] cbTextW ⟨2, 25, 0, "python"⟩
      CBEval.evaluate_code_block 33 (by decide) (by decide) (by decide)).1
      (by simp),
    (fun h2 => ⟨h2.1, h2.2 (by decide)⟩)
      ((C6_parsed_source initLANGUAGES ["generators"] cbTextW ⟨2, 25, 0, "python"⟩
        CBEval.evaluate_code_block 33 (by decide) (by decide) (by decide)).2
        (by simp))⟩

/-- C7: a code block whose language has no registered evaluator produces
no region and no error: the call on any match sequence containing it
equals the call on the sequence without it (the block is skipped and
scanning continues), and a parser over a document with zero matches
yields the empty sequence rather than failing. -/
theorem C7_unregistered_language_skipped (langs : List (String × CBEval))
    (fi : List String) (text : List Char) (ms₁ ms₂ : List StartMatch) (m : StartMatch)
    (h : dictGet langs m.language = none) :
    codeBlockCall langs fi text (ms₁ ++ m :: ms₂) = codeBlockCall langs fi text (ms₁ ++ ms₂) ∧
    codeBlockCall langs fi text [] = .ok [] := by
  refine ⟨?_, rfl⟩
  induction ms₁ with
  | nil =>
    simp only [List.nil_append]
    simp [codeBlockCall, processMatch, h]
  | cons m' t ih =>
    simp only [List.cons_append]
    cases hp : processMatch langs fi text m' with
    | none => simp [codeBlockCall, hp, ih]
    | some res =>
      cases res with
      | error e => simp [codeBlockCall, hp]
      | ok r => simp [codeBlockCall, hp, ih]

/-- C7 witness: a block tagged foo (not registered) between two python
blocks is skipped: the call equals the call without it, and the empty
match sequence yields ok empty. -/
theorem C7_unregistered_language_skipped_witness :
    dictGet initLANGUAGES "foo" = none ∧
    (codeBlockCall initLANGUAGES [] cbTextW [⟨0, 5, 0, "foo"⟩] =
        codeBlockCall initLANGUAGES [] cbTextW [] ∧
      codeBlockCall initLANGUAGES [] cbTextW [] = .ok []) :=
  ⟨by decide,
    C7_unregistered_language_skipped initLANGUAGES [] cbTextW [] []
      ⟨0, 5, 0, "foo"⟩ (by decide)⟩

theorem dictGet_add_evaluator_self {α : Type} :
    ∀ (reg : List (String × α)) (lang : String) (f : α),
      dictGet (add_evaluator reg lang f) lang = some f
  | [], lang, f => by simp [add_evaluator, dictGet]
  | (k, v) :: rest, lang, f => by
    by_cases h : k = lang
    · simp [add_evaluator, h, dictGet]
    · simp [add_evaluator, h, dictGet, dictGet_add_evaluator_self rest lang f]

theorem dictGet_add_evaluator_other {α : Type} :
    ∀ (reg : List (String × α)) (lang l' : String) (f : α), l' ≠ lang →
      dictGet (add_evaluator reg lang f) l' = dictGet reg l'
  | [], lang, l', f, h => by simp [add_evaluator, dictGet, Ne.symm h]
  | (k, v) :: rest, lang, l', f, h => by
    by_cases hk : k = lang
    · subst hk
      simp [add_evaluator, dictGet, Ne.symm h]
    · simp [add_evaluator, hk, dictGet, dictGet_add_evaluator_other rest lang l' f h]

theorem add_evaluator_overwrite {α : Type} :
    ∀ (reg : List (String × α)) (lang : String) (f g : α),
      add_evaluator (add_evaluator reg lang g) lang f = add_evaluator reg lang f
  | [], lang, f, g => by simp [add_evaluator]
  | (k, v) :: rest, lang, f, g => by
    by_cases h : k = lang
    · simp [add_evaluator, h]
    · simp [add_evaluator, h, add_evaluator_overwrite rest lang f g]

/-- C10: add_evaluator updates the one registry shared at class level:
after a call, looking the language up yields the new function while other
languages are untouched, registering again for the same language
overwrites, the registry initially maps only python to
evaluate_code_block, and dispatch in the parser's call — for any instance
state, i.e. any future-imports configuration, constructed before or after
the call — hands blocks tagged with that language to the new function. -/
theorem C10_add_evaluator_class_registry (reg : List (String × CBEval))
    (lang l' : String) (f g : CBEval) (fi : List String) (text : List Char)
    (m : StartMatch) :
    dictGet (add_evaluator reg lang f) lang = some f ∧
    (l' ≠ lang → dictGet (add_evaluator reg lang f) l' = dictGet reg l') ∧
    add_evaluator (add_evaluator reg lang g) lang f = add_evaluator reg lang f ∧
    initLANGUAGES = [("python", CBEval.evaluate_code_block)] ∧
    (m.language = lang → ∀ se, endSearch text m.indent m.stop = some se →
      ∃ r, processMatch (add_evaluator reg lang f) fi text m = some (.ok r) ∧
        r.evaluator = f) := by
  refine ⟨dictGet_add_evaluator_self reg lang f,
    fun h => dictGet_add_evaluator_other reg lang l' f h,
    add_evaluator_overwrite reg lang f g, rfl, ?_⟩
  intro hm se hse
  have hget : dictGet (add_evaluator reg lang f) m.language = some f := by
    rw [hm]
    exact dictGet_add_evaluator_self reg lang f
  exact ⟨_, processMatch_found hget hse, rfl⟩

/-- C10 witness: registering mylang on the initial registry makes mylang
resolve to the new function, leaves python intact, a second registration
overwrites the first, and a block tagged mylang dispatches to the new
function. -/
theorem C10_add_evaluator_class_registry_witness :
    dictGet (add_evaluator initLANGUAGES "mylang" (CBEval.custom 1)) "mylang" =
      some (CBEval.custom 1) ∧
    dictGet (add_evaluator initLANGUAGES "mylang" (CBEval.custom 1)) "python" =
      some CBEval.evaluate_code_block ∧
    add_evaluator (add_evaluator initLANGUAGES "mylang" (CBEval.custom 0)) "mylang"
        (CBEval.custom 1) = add_evaluator initLANGUAGES "mylang" (CBEval.custom 1) ∧
    (∃ r, processMatch (add_evaluator initLANGUAGES "mylang" (CBEval.custom 1)) []
        cbTextW ⟨2, 25, 0, "mylang"⟩ = some (.ok r) ∧ r.evaluator = CBEval.custom 1) := by
  obtain ⟨h1, h2, h3, _, h5⟩ :=
    C10_add_evaluator_class_registry initLANGUAGES "mylang" "python"
      (CBEval.custom 1) (CBEval.custom 0) [] cbTextW ⟨2, 25, 0, "mylang"⟩
  exact ⟨h1, (h2 (by decide)).trans (by decide), h3, h5 rfl 33 (by decide)⟩

theorem evalSequence_doc {N : Type} :
    ∀ (evs : List (N → N)) (store : Nat → N) (i : Nat) (rest : List (Nat × (N → N))),
    evalSequence store (evs.map (fun f => (i, f)) ++ rest) =
      localSeq i (store i) evs ++
        evalSequence
          (fun j => if j = i then evs.foldl (fun ns f => f ns) (store i) else store j) rest
  | [], store, i, rest => by
    simp only [List.map_nil, List.nil_append, localSeq, List.foldl_nil]
    have hs : (fun j => if j = i then store i else store j) = store := by
      funext j
      by_cases h : j = i
      · subst h; simp
      · simp [h]
    rw [hs]
  | f :: fs, store, i, rest => by
    simp only [List.map_cons, List.cons_append, evalSequence, localSeq, List.foldl_cons,
      List.append_eq]
    have hupd : nsUpdate store i f i = f (store i) := by simp [nsUpdate]
    rw [evalSequence_doc fs (nsUpdate store i f) i rest, hupd]
    have hs : (fun j => if j = i then fs.foldl (fun ns g => g ns) (f (store i))
          else nsUpdate store i f j) =
        (fun j => if j = i then fs.foldl (fun ns g => g ns) (f (store i)) else store j) := by
      funext j
      by_cases h : j = i
      · simp [h]
      · simp [h, nsUpdate]
    rw [hs]

theorem evalSequence_all {N : Type} (emptyNs : N) :
    ∀ (files : List (String × List (N → N))) (k : Nat) (store : Nat → N),
    (∀ j, k ≤ j → store j = emptyNs) →
    evalSequence store ((mkDocumentsFrom k files).map docCalls).flatten =
      ((mkDocumentsFrom k files).map (fun d => localSeq d.nsId emptyNs d.evaluators)).flatten
  | [], _, _, _ => by simp [mkDocumentsFrom, evalSequence]
  | (p, evs) :: rest, k, store, hst => by
    simp only [mkDocumentsFrom, List.map_cons, List.flatten_cons, docCalls]
    rw [evalSequence_doc evs store k _]
    rw [hst k (le_refl k)]
    congr 1
    apply evalSequence_all emptyNs rest (k + 1)
    intro j hj
    have hjk : j ≠ k := by omega
    simp only [hjk, if_false]
    exact hst j (by omega)

theorem mkDocumentsFrom_ids {N : Type} :
    ∀ (k : Nat) (files : List (String × List (N → N))),
      (mkDocumentsFrom k files).map (fun d => d.nsId) = List.range' k files.length
  | _, [] => rfl
  | k, _ :: rest => by
    simp only [mkDocumentsFrom, List.map_cons, List.length_cons, List.range']
    rw [mkDocumentsFrom_ids (k + 1) rest]

/-- C9: namespace scope is per document: all_documents gives every
document its own fresh namespace (consecutive distinct ids, one per
discovered file), and in the sequential evaluation of all documents'
examples, each example is passed exactly the namespace obtained by
folding its own document's earlier evaluators over the fresh empty
namespace — so an evaluator's mutation is seen by every later example of
the same document and by no example of any other document. -/
theorem C9_namespace_per_document {N : Type} (emptyNs : N)
    (files : List (String × List (N → N))) :
    (all_documents files).map (fun d => d.nsId) = List.range files.length ∧
    evalSequence (fun _ => emptyNs) ((all_documents files).map docCalls).flatten =
      ((all_documents files).map (fun d => localSeq d.nsId emptyNs d.evaluators)).flatten := by
  constructor
  · rw [all_documents, mkDocumentsFrom_ids, List.range_eq_range']
  · exact evalSequence_all emptyNs files 0 (fun _ => emptyNs) (fun _ _ => rfl)

theorem before_end_le_of_none {P E : Type} {l : List (Region P E)} {r : Region P E}
    (hch : l.Pairwise (fun a b : Region P E => a.«end» ≤ b.start))
    (hwf : ∀ x ∈ l, x.start ≤ x.«end»)
    (hpc : prevCheck r (before l r).getLast? = none) :
    ∀ x ∈ before l r, x.«end» ≤ r.start := by
  intro x hx
  have hbne : before l r ≠ [] := List.ne_nil_of_mem hx
  have hL := List.getLast?_eq_getLast_of_ne_nil hbne
  have hpend := prevCheck_eq_none_iff.mp hpc _ hL
  have hpwf := hwf _ (before_mem (getLast?_mem hL)).1
  have hpairb : (before l r).Pairwise (fun a b : Region P E => a.«end» ≤ b.start) :=
    hch.sublist (List.takeWhile_sublist _)
  rcases pairwise_getLast_rel hpairb hL x hx with heq | hxp
  · rw [heq]; exact hpend
  · omega

theorem after_start_ge_of_none {P E : Type} {l : List (Region P E)} {r : Region P E}
    (hch : l.Pairwise (fun a b : Region P E => a.«end» ≤ b.start))
    (hwf : ∀ x ∈ l, x.start ≤ x.«end»)
    (hnc : nextCheck r (after l r).head? = none) :
    ∀ y ∈ after l r, r.«end» ≤ y.start := by
  intro y hy
  cases hH : (after l r).head? with
  | none =>
    rw [List.head?_eq_none_iff] at hH
    rw [hH] at hy
    simp at hy
  | some nx =>
    have hnxge := nextCheck_eq_none_iff.mp hnc nx hH
    have hnxwf := hwf nx (after_subset (List.mem_of_mem_head? (Option.mem_def.mpr hH)))
    have hpair : (after l r).Pairwise (fun a b : Region P E => a.«end» ≤ b.start) :=
      hch.sublist (List.dropWhile_sublist _)
    rcases pairwise_head_rel hpair hH y hy with rfl | hrel
    · exact hnxge
    · omega

theorem add_ok_inversion {P E : Type} {d : Document P E} {r : Region P E}
    {d' : Document P E} (h : d.add r = .ok d') :
    0 ≤ r.start ∧ r.«end» ≤ (d.text.length : Int) ∧
    prevCheck r (before d.regions r).getLast? = none ∧
    nextCheck r (after d.regions r).head? = none ∧
    d' = ⟨d.text, d.path, before d.regions r ++ r :: after d.regions r⟩ := by
  unfold Document.add at h
  by_cases h0 : r.start < 0
  · rw [if_pos h0] at h; simp at h
  · rw [if_neg h0] at h
    by_cases h1 : (d.text.length : Int) < r.«end»
    · rw [if_pos h1] at h; simp at h
    · rw [if_neg h1] at h
      cases hpc : prevCheck r (before d.regions r).getLast? with
      | some e => rw [hpc] at h; simp at h
      | none =>
        rw [hpc] at h
        cases hnc : nextCheck r (after d.regions r).head? with
        | some e => rw [hnc] at h; simp at h
        | none =>
          rw [hnc] at h
          have hd' := (Except.ok.injEq _ _).mp h
          exact ⟨not_lt.mp h0, not_lt.mp h1, rfl, rfl, hd'.symm⟩

theorem add_preserves_invariant {P E : Type} {d : Document P E} {r : Region P E}
    {d' : Document P E} (h : d.add r = .ok d')
    (hch : chainOrdered d.regions) (hwf : ∀ x ∈ d.regions, x.start ≤ x.«end»)
    (hr : r.start ≤ r.«end») :
    chainOrdered d'.regions ∧ ∀ x ∈ d'.regions, x.start ≤ x.«end» := by
  obtain ⟨h0, h1, hpc, hnc, rfl⟩ := add_ok_inversion h
  rw [chainOrdered] at hch
  have hbefore := before_end_le_of_none hch hwf hpc
  have hafter := after_start_ge_of_none hch hwf hnc
  constructor
  · rw [chainOrdered, List.pairwise_append]
    refine ⟨hch.sublist (List.takeWhile_sublist _), ?_, ?_⟩
    · rw [List.pairwise_cons]
      exact ⟨hafter, hch.sublist (List.dropWhile_sublist _)⟩
    · intro x hx y hy
      have hxend := hbefore x hx
      rcases List.mem_cons.mp hy with rfl | hy'
      · exact hxend
      · have := hafter y hy'
        omega
  · intro x hx
    have hperm : (before d.regions r ++ r :: after d.regions r).Perm (r :: d.regions) :=
      List.perm_middle.trans
        (List.Perm.of_eq (by rw [before, after, List.takeWhile_append_dropWhile]))
    rcases List.mem_cons.mp (hperm.subset hx) with rfl | hxd
    · exact hr
    · exact hwf x hxd
